import Mathlib

/-!
Shallow embedding of the heading-aware structural patch engine of
`mcp_obsidian/obsidian.py` (class `Obsidian`), together with proofs about
the behaviour of its components.  Strings are modelled as `List Char`;
Python helper methods (`str.split`, `str.strip`, `list.insert`, ...) are
embedded as explicit list functions with Python semantics.
-/

namespace McpObsidian

/-- Strings are modelled as lists of characters. -/
abbrev Str := List Char

/-- Convert a Lean string literal into the character-list model. -/
def ofStr (s : String) : Str := s.data

/-- Python whitespace class `\s` (the ASCII part: space, tab, newline,
carriage return, vertical tab, form feed; the additional Unicode
whitespace code points behave identically and never occur in the
documents considered here). -/
def isPySpace (c : Char) : Bool :=
  c == ' ' || c == '\t' || c == '\n' || c == '\r' || c == '\x0b' || c == '\x0c'

/-- Python `str.strip()` with no argument: drop whitespace from both ends. -/
def pyStrip (s : Str) : Str :=
  ((s.dropWhile isPySpace).reverse.dropWhile isPySpace).reverse

/-- Python `str.rstrip()` with no argument: drop trailing whitespace. -/
def pyRstrip (s : Str) : Str :=
  (s.reverse.dropWhile isPySpace).reverse

/-- Python `str.rstrip("\n")`: drop trailing newline characters. -/
def rstripNl (s : Str) : Str :=
  (s.reverse.dropWhile (fun c => c == '\n')).reverse

/-- Python `str.strip("\n")`: drop newline characters from both ends. -/
def stripNlBoth (s : Str) : Str :=
  rstripNl (s.dropWhile (fun c => c == '\n'))

/-- Python `str.strip(ch)` for a single strip character `ch`. -/
def stripChar (ch : Char) (s : Str) : Str :=
  ((s.dropWhile (fun c => c == ch)).reverse.dropWhile (fun c => c == ch)).reverse

/-- Python `content.split("\n")`. -/
def splitNl : Str → List Str
  | [] => [[]]
  | c :: rest =>
    if c = '\n' then [] :: splitNl rest
    else (splitNl rest).modifyHead (fun l => c :: l)

/-- Python `"\n".join(lines)`. -/
def joinNl : List Str → Str
  | [] => []
  | [l] => l
  | l :: ls => l ++ '\n' :: joinNl ls

/-- Python `target.split("::")` (leftmost, non-overlapping occurrences). -/
def splitCC : Str → List Str
  | ':' :: ':' :: rest => [] :: splitCC rest
  | c :: rest => (splitCC rest).modifyHead (fun l => c :: l)
  | [] => [[]]

/-- Python `list.insert(i, x)` (clamps the index to the list length). -/
def pyInsert (l : List α) (i : Nat) (x : α) : List α :=
  l.take i ++ x :: l.drop i

/-- Python `s.endswith("\n")`. -/
def endsWithNl (s : Str) : Bool := s.getLast? == some '\n'

/-- A parsed markdown heading: the Python code represents it as the tuple
`(level, text, line_number)`. -/
structure Heading where
  level : Nat
  text : Str
  line : Nat
deriving DecidableEq, Repr

/-- Length of the maximal run of leading `#` characters. -/
def countHashes : Str → Nat
  | '#' :: rest => countHashes rest + 1
  | _ => 0

/-- One line against the regex `^(#{1,6})\s+(.+)$` of
`_parse_heading_structure`: the greedy hash group takes every leading `#`
(1 to 6 of them, with no seventh), `\s+(.+)$` then requires the remainder
to start with a whitespace character and contain at least one further
character; after backtracking, `group(2).strip()` always equals the
remainder stripped of surrounding whitespace. -/
def matchHeadingLine (l : Str) : Option (Nat × Str) :=
  let k := countHashes l
  if 1 ≤ k ∧ k ≤ 6 then
    match l.drop k with
    | [] => none
    | c :: rest => if isPySpace c ∧ rest ≠ [] then some (k, pyStrip (c :: rest)) else none
  else none

/-- The line loop of `_parse_heading_structure`, carrying the 0-based index. -/
def headingsFrom : List Str → Nat → List Heading
  | [], _ => []
  | l :: ls, i =>
    match matchHeadingLine l with
    | some (k, t) => ⟨k, t, i⟩ :: headingsFrom ls (i + 1)
    | none => headingsFrom ls (i + 1)

/-- `Obsidian._parse_heading_structure`. -/
def parseHeadingStructure (content : Str) : List Heading :=
  headingsFrom (splitNl content) 0

/-- `Obsidian._find_heading_boundary`: first heading strictly after the
target line at the target level or shallower; end of file otherwise. -/
def findHeadingBoundary (lines : List Str) (headings : List Heading)
    (targetLine targetLevel : Nat) : Nat :=
  match headings with
  | [] => lines.length
  | h :: rest =>
    if targetLine < h.line ∧ h.level ≤ targetLevel then h.line
    else findHeadingBoundary lines rest targetLine targetLevel

/-- The child-search loop of `_find_heading_in_structure`: skip headings at
or before the parent line, stop at the first heading at the parent level or
shallower, otherwise return the first heading whose text is the child. -/
def findChildScan (parentLevel parentLine : Nat) (child : Str) :
    List Heading → Option Heading
  | [] => none
  | h :: rest =>
    if h.line ≤ parentLine then findChildScan parentLevel parentLine child rest
    else if h.level ≤ parentLevel then none
    else if h.text = child then some h
    else findChildScan parentLevel parentLine child rest

/-- `Obsidian._find_heading_in_structure`. -/
def findHeadingInStructure (headings : List Heading) (target : Str) :
    Option Heading :=
  let parts := splitCC target
  if parts.length = 1 then
    headings.find? (fun h => h.text == target)
  else
    match headings.find? (fun h => h.text == parts.headD []) with
    | none => none
    | some parent => findChildScan parent.level parent.line (parts.getLastD []) headings

/-- The tail of the closing-delimiter regex `\n---\s*\n` after the literal
`\n---`: a possibly empty run of whitespace followed by a newline (a
newline itself satisfies `\s`, so it terminates immediately). -/
def wsThenNl : Str → Bool
  | [] => false
  | c :: cs => if c = '\n' then true else if isPySpace c then wsThenNl cs else false

/-- Whether the regex `\n---\s*\n` matches at the start of the string. -/
def closingHere : Str → Bool
  | '\n' :: '-' :: '-' :: '-' :: rest => wsThenNl rest
  | _ => false

/-- `re.search(r"\n---\s*\n", s)`: index of the leftmost match, if any. -/
def findClosing : Str → Option Nat
  | [] => none
  | c :: rest =>
    if closingHere (c :: rest) then some 0
    else (findClosing rest).map (· + 1)

/-- Python dict assignment `d[k] = v`: replace the value of an existing
key in place, otherwise append the new entry. -/
def dictSet : List (Str × Str) → Str → Str → List (Str × Str)
  | [], k, v => [(k, v)]
  | (k0, v0) :: rest, k, v =>
    if k0 = k then (k0, v) :: rest else (k0, v0) :: dictSet rest k v

/-- Python dict lookup `d.get(k)` / `d[k]`. -/
def dictGet (d : List (Str × Str)) (k : Str) : Option Str :=
  (d.find? (fun p => p.1 == k)).map (fun p => p.2)

/-- Python `line.partition(":")` restricted to the two parts around the
first colon (the code only uses `key` and `value`). -/
def partitionColon : Str → Str × Str
  | [] => ([], [])
  | c :: rest =>
    if c = ':' then ([], rest)
    else
      let p := partitionColon rest
      (c :: p.1, p.2)

/-- The per-line step of `_parse_frontmatter`: strip the line, require a
colon, split at the first colon, strip the key, strip and unquote the
value, and record the pair when both sides are non-empty. -/
def frontmatterLineStep (acc : List (Str × Str)) (rawLine : Str) :
    List (Str × Str) :=
  let line := pyStrip rawLine
  if line.contains ':' then
    let p := partitionColon line
    let key := pyStrip p.1
    let value := stripChar '\x27' (stripChar '"' (pyStrip p.2))
    if key ≠ [] ∧ value ≠ [] then dictSet acc key value else acc
  else acc

/-- `Obsidian._parse_frontmatter`.  The slice `content[4 : end.start() + 3]`
is rendered with Python slice semantics (empty when the stop index is at or
before the start index). -/
def parseFrontmatter (content : Str) : List (Str × Str) :=
  if (ofStr "---").isPrefixOf content then
    match findClosing (content.drop 3) with
    | none => []
    | some st =>
      let fmText := (content.drop 4).take (st + 3 - 4)
      (splitNl fmText).foldl frontmatterLineStep []
  else []

/-- Python `filepath.rsplit("/", 1)[0]`: everything before the last slash
(only used under the guard that a slash is present). -/
def beforeLastSlash (s : Str) : Str :=
  (((s.reverse.dropWhile (fun c => c ≠ '/')).drop 1)).reverse

/-- `Obsidian._get_template_for_file`.  The vault is modelled by a read
function `read : path → Option text`; a `none` result stands for any
exception from `get_file_contents`. -/
def getTemplateForFile (read : Str → Option Str) (filepath content : Str) :
    Option Str :=
  let fm := parseFrontmatter content
  match dictGet fm (ofStr "template") with
  | some tp =>
    some (if (ofStr "Templates/").isPrefixOf tp then tp else ofStr "Templates/" ++ tp)
  | none =>
    if filepath.contains '/' then
      let conventionTemplate := ofStr "Templates/" ++ beforeLastSlash filepath ++ ofStr ".md"
      match read conventionTemplate with
      | some _ => some conventionTemplate
      | none => none
    else none

/-- `Obsidian._find_insertion_point`. -/
def findInsertionPoint (currentHeadings templateHeadings : List Heading)
    (targetHeading : Str) (targetLevel : Nat) : Option Nat :=
  match templateHeadings.findIdx? (fun h => h.text == targetHeading && h.level == targetLevel) with
  | none => none
  | some ti =>
    let nextBoundary := (templateHeadings.drop (ti + 1)).find? (fun h => h.level ≤ targetLevel)
    let forward : Option Nat :=
      match nextBoundary with
      | none => none
      | some nb =>
        (currentHeadings.find? (fun h => h.text == nb.text && h.level == nb.level)).map (·.line)
    match forward with
    | some ln => some ln
    | none =>
      match (templateHeadings.take ti).reverse.find? (fun h => h.level ≤ targetLevel) with
      | none => none
      | some prev =>
        match currentHeadings.find? (fun h => h.text == prev.text && h.level == prev.level) with
        | none => none
        | some curPrev =>
          match currentHeadings.find? (fun h => curPrev.line < h.line && h.level ≤ curPrev.level) with
          | some h2 => some h2.line
          | none => none

/-- Errors of the patch engine.  `headingNotFound` models the internal
`HeadingNotFoundError`, `notFoundError` the user-facing
`Error 40080: Heading not found`, `invalidOperation` the `ValueError` for
an unknown operation, and `readError` any failure of the read primitive.
A result of `Except.error` means the write primitive was never invoked:
every write performed by the model is carried in the `Except.ok` payload. -/
inductive PatchError
  | headingNotFound (target : Str)
  | notFoundError (target : Str)
  | invalidOperation (operation : Str)
  | readError
deriving DecidableEq, Repr

/-- The pure core of `Obsidian._patch_heading_content`: from the current
content and the request, compute the new full document to write, or fail. -/
def patchHeadingContentPure (currentContent operation target content : Str) :
    Except PatchError Str :=
  let lines := splitNl currentContent
  let headings := parseHeadingStructure currentContent
  match findHeadingInStructure headings target with
  | none => .error (.headingNotFound target)
  | some found =>
    let targetLevel := found.level
    let targetLine := found.line
    let boundaryLine := findHeadingBoundary lines headings targetLine targetLevel
    if operation = ofStr "append" then
      let content1 := if (ofStr "\n").isPrefixOf content then content else '\n' :: content
      .ok (joinNl (pyInsert lines boundaryLine (rstripNl content1)))
    else if operation = ofStr "prepend" then
      let content1 := if endsWithNl content then content else content ++ ['\n']
      .ok (joinNl (pyInsert lines (targetLine + 1) (stripNlBoth content1)))
    else if operation = ofStr "replace" then
      .ok (joinNl (lines.take (targetLine + 1) ++ splitNl (stripNlBoth content)
        ++ lines.drop boundaryLine))
    else .error (.invalidOperation operation)

/-- The pure part of `Obsidian._insert_heading_at_position`: the content
string handed to the write primitive. -/
def insertHeadingAtPosition (content : Str) (heading headingContent : Str)
    (lineNumber headingLevel : Nat) : Str :=
  let lines := splitNl content
  let newSection := '\n' :: (List.replicate headingLevel '#' ++ ' ' :: (heading ++ headingContent ++ ['\n']))
  joinNl (pyInsert lines lineNumber newSection)

/-- The template branch of `_create_heading_and_append` (the body of its
`try` block, up to the successful positioning): resolve the template —
a falsy explicit `template_path` falls back to `_get_template_for_file`,
mirroring Python `or` — read it, and compute the insertion point; any
failure (`none`) falls through to the end-of-document append, like the
`try/except` in the source. -/
def createViaTemplate (read : Str → Option Str)
    (filepath currentContent finalHeading content : Str)
    (headingLevel : Nat) (templatePath : Option Str) : Option Str :=
  let template : Option Str :=
    match templatePath with
    | some t => if t = [] then getTemplateForFile read filepath currentContent else some t
    | none => getTemplateForFile read filepath currentContent
  match template with
  | none => none
  | some tpl =>
    match read tpl with
    | none => none
    | some templateContent =>
      match findInsertionPoint (parseHeadingStructure currentContent)
          (parseHeadingStructure templateContent) finalHeading headingLevel with
      | none => none
      | some insertionPoint =>
        some (insertHeadingAtPosition currentContent finalHeading content
          insertionPoint headingLevel)

/-- `Obsidian._create_heading_and_append`, returning the (path, text) pair
handed to the write primitive. -/
def createHeadingAndAppend (read : Str → Option Str)
    (filepath heading content : Str) (templatePath : Option Str)
    (useTemplate : Bool) : Except PatchError (Str × Str) :=
  let headingParts := splitCC heading
  let headingLevel := headingParts.length + 1
  let finalHeading := headingParts.getLastD []
  match read filepath with
  | none => .error .readError
  | some currentContent =>
    match (if useTemplate then
        createViaTemplate read filepath currentContent finalHeading content
          headingLevel templatePath
      else none) with
    | some newContent => .ok (filepath, newContent)
    | none =>
      let newSection := ofStr "\n\n" ++ List.replicate headingLevel '#'
        ++ ' ' :: (finalHeading ++ content)
      .ok (filepath, pyRstrip currentContent ++ newSection)

/-- The `target_type == "heading"` branch of `Obsidian.patch_content`
(block and frontmatter targets are forwarded verbatim to the remote PATCH
endpoint and are outside the core).  On success it returns the single
(path, text) write performed. -/
def patchContent (read : Str → Option Str)
    (filepath operation target content : Str)
    (createHeadingIfMissing : Bool) (templatePath : Option Str)
    (useTemplate : Bool) : Except PatchError (Str × Str) :=
  match read filepath with
  | none => .error .readError
  | some currentContent =>
    match patchHeadingContentPure currentContent operation target content with
    | .ok newContent => .ok (filepath, newContent)
    | .error (.headingNotFound t) =>
      if createHeadingIfMissing then
        createHeadingAndAppend read filepath target content templatePath useTemplate
      else .error (.notFoundError t)
    | .error e => .error e

/-! ### Basic facts about the line model -/

theorem splitNl_ne_nil (s : Str) : splitNl s ≠ [] := by
  induction s with
  | nil => simp [splitNl]
  | cons c rest ih =>
    simp only [splitNl]
    split
    · simp
    · intro h
      exact ih (by simpa using congrArg List.length h)

theorem not_mem_of_mem_splitNl {s : Str} {l : Str} (hl : l ∈ splitNl s) :
    '\n' ∉ l := by
  induction s generalizing l with
  | nil =>
    simp only [splitNl, List.mem_singleton] at hl
    subst hl; simp
  | cons c rest ih =>
    simp only [splitNl] at hl
    split at hl
    · rcases List.mem_cons.mp hl with h | h
      · subst h; simp
      · exact ih h
    · rcases hsp : splitNl rest with _ | ⟨hd, tl⟩
      · exact absurd hsp (splitNl_ne_nil rest)
      · rw [hsp, List.modifyHead_cons] at hl
        rcases List.mem_cons.mp hl with h | h
        · subst h
          intro hmem
          rcases List.mem_cons.mp hmem with h2 | h2
          · rename_i hne; exact hne h2.symm
          · exact ih (hsp ▸ List.mem_cons_self hd tl) h2
        · exact ih (hsp ▸ List.mem_cons_of_mem hd h)

theorem splitNl_of_not_mem {s : Str} (h : '\n' ∉ s) : splitNl s = [s] := by
  induction s with
  | nil => simp [splitNl]
  | cons c rest ih =>
    simp only [List.mem_cons, not_or] at h
    simp [splitNl, Ne.symm h.1, ih h.2]

theorem splitNl_append_nl (a b : Str) :
    splitNl (a ++ '\n' :: b) = splitNl a ++ splitNl b := by
  induction a with
  | nil => simp [splitNl]
  | cons c rest ih =>
    simp only [List.cons_append, splitNl]
    split
    · simp [ih]
    · rw [show rest.append ('\n' :: b) = rest ++ '\n' :: b from rfl, ih]
      rcases hsp : splitNl rest with _ | ⟨hd, tl⟩
      · exact absurd hsp (splitNl_ne_nil rest)
      · simp

theorem joinNl_append (A B : List Str) (hA : A ≠ []) (hB : B ≠ []) :
    joinNl (A ++ B) = joinNl A ++ '\n' :: joinNl B := by
  induction A with
  | nil => exact absurd rfl hA
  | cons l ls ih =>
    rcases ls with _ | ⟨l2, ls2⟩
    · rcases B with _ | ⟨b, bs⟩
      · exact absurd rfl hB
      · simp [joinNl]
    · have h1 : joinNl ((l :: l2 :: ls2) ++ B) = l ++ '\n' :: joinNl ((l2 :: ls2) ++ B) := rfl
      have h3 : joinNl (l :: l2 :: ls2) = l ++ '\n' :: joinNl (l2 :: ls2) := rfl
      rw [h1, ih (by simp), h3]
      simp

theorem splitNl_joinNl (ls : List Str) (hne : ls ≠ [])
    (hnl : ∀ l ∈ ls, '\n' ∉ l) : splitNl (joinNl ls) = ls := by
  induction ls with
  | nil => exact absurd rfl hne
  | cons l rest ih =>
    rcases rest with _ | ⟨l2, rest2⟩
    · simp [joinNl, splitNl_of_not_mem (hnl l (by simp))]
    · rw [show joinNl (l :: l2 :: rest2) = l ++ '\n' :: joinNl (l2 :: rest2) from rfl,
        splitNl_append_nl, splitNl_of_not_mem (hnl l (by simp)),
        ih (by simp) (fun x hx => hnl x (List.mem_cons_of_mem l hx))]
      rfl

theorem mem_splitNl_joinNl (ls : List Str) (x : Str) (hx : x ∈ ls)
    (seg : Str) (hseg : seg ∈ splitNl x) : seg ∈ splitNl (joinNl ls) := by
  induction ls with
  | nil => simp at hx
  | cons y rest ih =>
    rcases rest with _ | ⟨r2, rest2⟩
    · simp only [List.mem_singleton] at hx
      subst hx; simpa [joinNl] using hseg
    · rw [show joinNl (y :: r2 :: rest2) = y ++ '\n' :: joinNl (r2 :: rest2) from rfl,
        splitNl_append_nl]
      rcases List.mem_cons.mp hx with h | h
      · subst h; exact List.mem_append_left _ hseg
      · exact List.mem_append_right _ (ih h)

/-! ### Basic facts about the heading parser -/

theorem headingsFrom_append (xs ys : List Str) (i : Nat) :
    headingsFrom (xs ++ ys) i = headingsFrom xs i ++ headingsFrom ys (i + xs.length) := by
  induction xs generalizing i with
  | nil => simp [headingsFrom]
  | cons l ls ih =>
    simp only [List.cons_append, headingsFrom]
    have harg : ls.append ys = ls ++ ys := rfl
    have hlen : i + 1 + ls.length = i + (l :: ls).length := by
      simp only [List.length_cons]; omega
    rcases matchHeadingLine l with _ | ⟨k, t⟩
    · rw [harg, ih, hlen]
    · rw [harg, ih, hlen]
      simp

theorem line_bounds_of_mem_headingsFrom {xs : List Str} {i : Nat} {h : Heading}
    (hm : h ∈ headingsFrom xs i) : i ≤ h.line ∧ h.line < i + xs.length := by
  induction xs generalizing i with
  | nil => simp [headingsFrom] at hm
  | cons l ls ih =>
    simp only [headingsFrom] at hm
    rcases hml : matchHeadingLine l with _ | ⟨k, t⟩
    · rw [hml] at hm
      have := ih hm
      simp only [List.length_cons]
      omega
    · rw [hml] at hm
      rcases List.mem_cons.mp hm with h1 | h1
      · subst h1
        refine ⟨Nat.le_refl _, ?_⟩
        show i < i + (l :: ls).length
        simp only [List.length_cons]
        omega
      · have := ih h1
        simp only [List.length_cons]
        omega

theorem headingsFrom_pairwise (xs : List Str) (i : Nat) :
    (headingsFrom xs i).Pairwise (fun a b => a.line < b.line) := by
  induction xs generalizing i with
  | nil => simp [headingsFrom]
  | cons l ls ih =>
    simp only [headingsFrom]
    rcases matchHeadingLine l with _ | ⟨k, t⟩
    · exact ih (i + 1)
    · refine List.Pairwise.cons ?_ (ih (i + 1))
      intro b hb
      have := (line_bounds_of_mem_headingsFrom hb).1
      simpa using Nat.lt_of_lt_of_le (Nat.lt_succ_self i) this

theorem mem_headingsFrom_iff (xs : List Str) (i : Nat) (k : Nat) (t : Str) (n : Nat) :
    (⟨k, t, n⟩ : Heading) ∈ headingsFrom xs i ↔
      ∃ j l, xs[j]? = some l ∧ matchHeadingLine l = some (k, t) ∧ n = i + j := by
  induction xs generalizing i with
  | nil => simp [headingsFrom]
  | cons x ls ih =>
    simp only [headingsFrom]
    rcases hml : matchHeadingLine x with _ | ⟨k2, t2⟩
    · rw [ih]
      constructor
      · rintro ⟨j, l, hj, hmatch, hn⟩
        exact ⟨j + 1, l, by simpa using hj, hmatch, by omega⟩
      · rintro ⟨j, l, hj, hmatch, hn⟩
        rcases j with _ | j
        · simp at hj; subst hj
          rw [hml] at hmatch; cases hmatch
        · exact ⟨j, l, by simpa using hj, hmatch, by omega⟩
    · constructor
      · intro hm
        rcases List.mem_cons.mp hm with h1 | h1
        · injection h1 with hk ht hn
          subst hk; subst ht; subst hn
          exact ⟨0, x, by simp, hml, by omega⟩
        · rcases (ih (i + 1)).mp h1 with ⟨j, l, hj, hmatch, hn⟩
          exact ⟨j + 1, l, by simpa using hj, hmatch, by omega⟩
      · rintro ⟨j, l, hj, hmatch, hn⟩
        rcases j with _ | j
        · simp at hj; subst hj
          rw [hml] at hmatch
          injection hmatch with h2
          injection h2 with hk ht
          subst hk; subst ht
          simp [hn]
        · refine List.mem_cons_of_mem _ ((ih (i + 1)).mpr ⟨j, l, by simpa using hj, hmatch, by omega⟩)

/-! ### C1: section boundary -/

theorem findHeadingBoundary_first (lines : List Str) (hs : List Heading) (i L : Nat)
    (hsort : hs.Pairwise (fun a b => a.line < b.line)) :
    (∃ h, h ∈ hs ∧ i < h.line ∧ h.level ≤ L ∧
        findHeadingBoundary lines hs i L = h.line ∧
        ∀ h2, h2 ∈ hs → i < h2.line → h2.level ≤ L → h.line ≤ h2.line) ∨
      ((∀ h, h ∈ hs → ¬(i < h.line ∧ h.level ≤ L)) ∧
        findHeadingBoundary lines hs i L = lines.length) := by
  induction hs with
  | nil => right; exact ⟨by simp, rfl⟩
  | cons h rest ih =>
    rcases List.pairwise_cons.mp hsort with ⟨hlt, hrest⟩
    by_cases hp : i < h.line ∧ h.level ≤ L
    · left
      refine ⟨h, List.mem_cons_self _ _, hp.1, hp.2, by simp [findHeadingBoundary, hp], ?_⟩
      intro h2 hm _ _
      rcases List.mem_cons.mp hm with h2e | h2m
      · exact h2e ▸ Nat.le_refl _
      · exact Nat.le_of_lt (hlt h2 h2m)
    · have hb : findHeadingBoundary lines (h :: rest) i L
          = findHeadingBoundary lines rest i L := by
        simp [findHeadingBoundary, hp]
      rcases ih hrest with ⟨h2, hm, hi, hl, he, hmin⟩ | ⟨hnone, he⟩
      · left
        refine ⟨h2, List.mem_cons_of_mem _ hm, hi, hl, hb ▸ he, ?_⟩
        intro h3 hm3 hi3 hl3
        rcases List.mem_cons.mp hm3 with h3e | h3m
        · exact absurd ⟨h3e ▸ hi3, h3e ▸ hl3⟩ hp
        · exact hmin h3 h3m hi3 hl3
      · right
        refine ⟨?_, hb ▸ he⟩
        intro h3 hm3
        rcases List.mem_cons.mp hm3 with h3e | h3m
        · exact h3e ▸ hp
        · exact hnone h3 h3m

/-- C1: for every document and its parsed heading list, the section
boundary computed by `_find_heading_boundary` for a target at line `i` and
level `L` is the line index of the first heading in document order (the
qualifying heading with the least line index) having `line > i` and
`level ≤ L`, and is the total line count when no heading qualifies. -/
theorem c1_section_boundary (content : Str) (i L : Nat) :
    (∃ h, h ∈ parseHeadingStructure content ∧ i < h.line ∧ h.level ≤ L ∧
        findHeadingBoundary (splitNl content) (parseHeadingStructure content) i L = h.line ∧
        ∀ h2, h2 ∈ parseHeadingStructure content → i < h2.line → h2.level ≤ L →
          h.line ≤ h2.line) ∨
      ((∀ h, h ∈ parseHeadingStructure content → ¬(i < h.line ∧ h.level ≤ L)) ∧
        findHeadingBoundary (splitNl content) (parseHeadingStructure content) i L
          = (splitNl content).length) :=
  findHeadingBoundary_first (splitNl content) (headingsFrom (splitNl content) 0) i L
    (headingsFrom_pairwise (splitNl content) 0)

/-! ### C2: nested heading lookup -/

/-- The scope the spec describes for a nested target: headings past the
parent's line, up to (and excluding) the first heading at the parent's
level or shallower. -/
def nestedScope (hs : List Heading) (parent : Heading) : List Heading :=
  (hs.filter (fun h => parent.line < h.line)).takeWhile (fun h => parent.level < h.level)

/-- The nested-lookup contract as the spec words it: the parent is the
first heading anywhere whose text equals the first segment (`NotFound` if
none); the result is the first heading inside the parent's scope whose
text equals the last segment. -/
def locateNestedSpec (hs : List Heading) (a z : Str) : Option Heading :=
  match hs.find? (fun h => h.text == a) with
  | none => none
  | some parent => (nestedScope hs parent).find? (fun h => h.text == z)

theorem findChildScan_eq (plvl pline : Nat) (z : Str) (hs : List Heading) :
    findChildScan plvl pline z hs =
      ((hs.filter (fun h => pline < h.line)).takeWhile (fun h => plvl < h.level)).find?
        (fun h => h.text == z) := by
  induction hs with
  | nil => rfl
  | cons h rest ih =>
    simp only [findChildScan, List.filter_cons]
    by_cases h1 : h.line ≤ pline
    · simp [if_pos h1, show ¬ pline < h.line by omega, ih]
    · by_cases h2 : h.level ≤ plvl
      · simp [if_neg h1, if_pos h2, show pline < h.line by omega,
          show ¬ plvl < h.level by omega, List.takeWhile_cons]
      · by_cases h3 : h.text = z
        · simp [if_neg h1, if_neg h2, h3, show pline < h.line by omega,
            show plvl < h.level by omega, List.takeWhile_cons, List.find?_cons]
        · simp [if_neg h1, if_neg h2, h3, show pline < h.line by omega,
            show plvl < h.level by omega, List.takeWhile_cons, List.find?_cons, ih]

/-- C2: for a nested target `A::...::Z`, `_find_heading_in_structure`
depends only on the first and last segments; it takes the first heading
anywhere whose text equals the first segment as parent (`none` if absent)
and returns the first heading with the last segment's text inside the
parent's scope, which ends at the first heading at the parent's level or
shallower.  On the heading list `[(2,A,0),(3,B,2),(2,C,5),(3,B,7)]`,
locating `A::B` yields `(3,B,2)`, never the second `B`. -/
theorem c2_nested_locator (hs : List Heading) (target : Str)
    (hnested : 2 ≤ (splitCC target).length) :
    findHeadingInStructure hs target =
      locateNestedSpec hs ((splitCC target).headD []) ((splitCC target).getLastD []) ∧
    findHeadingInStructure
      [⟨2, ofStr "A", 0⟩, ⟨3, ofStr "B", 2⟩, ⟨2, ofStr "C", 5⟩, ⟨3, ofStr "B", 7⟩]
      (ofStr "A::B") = some ⟨3, ofStr "B", 2⟩ := by
  constructor
  · unfold findHeadingInStructure locateNestedSpec
    simp only [show ¬ (splitCC target).length = 1 by omega, if_false]
    cases hfind : hs.find? (fun h => h.text == (splitCC target).headD []) with
    | none => simp [hfind]
    | some parent => simp [hfind, findChildScan_eq, nestedScope]
  · decide

/-- Witness for C2 at a concrete heading list and nested target. -/
theorem c2_nested_locator_witness :
    2 ≤ (splitCC (ofStr "A::B")).length ∧
    findHeadingInStructure [⟨2, ofStr "A", 0⟩, ⟨3, ofStr "B", 2⟩] (ofStr "A::B") =
      locateNestedSpec [⟨2, ofStr "A", 0⟩, ⟨3, ofStr "B", 2⟩]
        ((splitCC (ofStr "A::B")).headD []) ((splitCC (ofStr "A::B")).getLastD []) := by
  refine ⟨by decide, ?_⟩
  exact (c2_nested_locator [⟨2, ofStr "A", 0⟩, ⟨3, ofStr "B", 2⟩] (ofStr "A::B")
    (by decide)).1

/-! ### C9: which lines the heading parser records -/

theorem countHashes_cons_ne {c : Char} (h : c ≠ '#') (l : Str) :
    countHashes (c :: l) = 0 := by
  unfold countHashes
  split
  · rename_i heq
    injection heq with h1 _
    exact absurd h1 h
  · rfl

theorem countHashes_replicate_append (k : Nat) (l : Str) :
    countHashes (List.replicate k '#' ++ l) = k + countHashes l := by
  induction k with
  | zero => simp
  | succ m ih =>
    rw [List.replicate_succ, List.cons_append,
      show countHashes ('#' :: (List.replicate m '#' ++ l))
        = countHashes (List.replicate m '#' ++ l) + 1 from rfl, ih]
    omega

theorem take_countHashes (l : Str) :
    l.take (countHashes l) = List.replicate (countHashes l) '#' := by
  induction l with
  | nil => simp [countHashes]
  | cons c rest ih =>
    by_cases hc : c = '#'
    · subst hc
      rw [show countHashes ('#' :: rest) = countHashes rest + 1 from rfl,
        List.take_succ_cons, ih, List.replicate_succ]
    · rw [countHashes_cons_ne hc]
      simp

theorem ne_hash_of_isPySpace {c : Char} (h : isPySpace c = true) : c ≠ '#' := by
  simp only [isPySpace, Bool.or_eq_true, beq_iff_eq] at h
  rcases h with ((((h | h) | h) | h) | h) | h <;> subst h <;> decide

theorem drop_replicate_append (k : Nat) (a : α) (l : List α) :
    (List.replicate k a ++ l).drop k = l := by
  induction k with
  | zero => simp
  | succ m ih => rw [List.replicate_succ, List.cons_append, List.drop_succ_cons, ih]

theorem matchHeadingLine_eq_some_iff (l : Str) (k : Nat) (t : Str) :
    matchHeadingLine l = some (k, t) ↔
      ∃ w r, l = List.replicate k '#' ++ w ++ r ∧ 1 ≤ k ∧ k ≤ 6 ∧ w ≠ [] ∧
        (∀ c ∈ w, isPySpace c) ∧ r ≠ [] ∧ t = pyStrip (w ++ r) := by
  constructor
  · intro hm
    simp only [matchHeadingLine] at hm
    split at hm
    · rename_i h16
      split at hm
      · cases hm
      · rename_i c rest hdrop
        split at hm
        · rename_i hcond
          injection hm with hm2
          injection hm2 with hk ht
          refine ⟨[c], rest, ?_, by omega, by omega, by simp, ?_, hcond.2, ?_⟩
          · subst hk
            conv_lhs => rw [← List.take_append_drop (countHashes l) l]
            rw [take_countHashes, hdrop]
            simp
          · intro c2 hc2
            simp only [List.mem_singleton] at hc2
            subst hc2
            exact hcond.1
          · subst ht; simp
        · cases hm
    · cases hm
  · rintro ⟨w, r, hl, hk1, hk6, hwne, hws, hrne, ht⟩
    rcases w with _ | ⟨c, w2⟩
    · exact absurd rfl hwne
    · have hc : isPySpace c = true := hws c (by simp)
      have hcount : countHashes l = k := by
        rw [hl, List.append_assoc, countHashes_replicate_append,
          List.cons_append, countHashes_cons_ne (ne_hash_of_isPySpace hc)]
        omega
      have hdrop2 : l.drop k = c :: (w2 ++ r) := by
        rw [hl, List.append_assoc, List.cons_append, drop_replicate_append]
      simp only [matchHeadingLine, hcount, hdrop2]
      rw [if_pos (⟨hk1, hk6⟩ : 1 ≤ k ∧ k ≤ 6)]
      show (if isPySpace c = true ∧ w2 ++ r ≠ [] then some (k, pyStrip (c :: (w2 ++ r)))
        else none) = some (k, t)
      rw [if_pos ⟨hc, by simp [hrne]⟩]
      have h2 : pyStrip (c :: (w2 ++ r)) = pyStrip ((c :: w2) ++ r) := by simp
      rw [h2, ← ht]

/-- C9 (amended): `_parse_heading_structure` records a heading for line
`n` exactly when that line decomposes as 1–6 `#` characters, then one or
more whitespace characters, then at least one further character (which may
itself be whitespace); level is the count of `#`, text is the trailing
content after the hashes trimmed of surrounding whitespace — so a line of
1–6 `#` followed by a single whitespace character records nothing, but two
or more trailing whitespace characters record a heading whose trimmed text
is empty. -/
theorem c9_heading_recognition (content : Str) (k : Nat) (t : Str) (n : Nat) :
    (⟨k, t, n⟩ : Heading) ∈ parseHeadingStructure content ↔
      ∃ l w r, (splitNl content)[n]? = some l ∧
        l = List.replicate k '#' ++ w ++ r ∧ 1 ≤ k ∧ k ≤ 6 ∧ w ≠ [] ∧
        (∀ c ∈ w, isPySpace c) ∧ r ≠ [] ∧ t = pyStrip (w ++ r) := by
  rw [parseHeadingStructure, mem_headingsFrom_iff]
  constructor
  · rintro ⟨j, l, hj, hmatch, hn⟩
    rcases (matchHeadingLine_eq_some_iff l k t).mp hmatch with
      ⟨w, r, hl, hk1, hk6, hwne, hws, hrne, ht⟩
    exact ⟨l, w, r, by rw [show n = j by omega]; exact hj, hl, hk1, hk6, hwne, hws, hrne, ht⟩
  · rintro ⟨l, w, r, hl, hdecomp, hk1, hk6, hwne, hws, hrne, ht⟩
    exact ⟨n, l, hl,
      (matchHeadingLine_eq_some_iff l k t).mpr ⟨w, r, hdecomp, hk1, hk6, hwne, hws, hrne, ht⟩,
      by omega⟩

/-- C9 counterexample: the line consisting of `#` followed by two spaces
is made of 1–6 `#` characters followed only by whitespace, yet the parser
records a heading for it, and that heading's trimmed text is empty —
contradicting the claim that no heading is recorded for such lines and
that every recorded heading has non-empty text. -/
theorem c9_counterexample :
    parseHeadingStructure (ofStr "#  ") = [⟨1, [], 0⟩] ∧
    ∃ h ∈ parseHeadingStructure (ofStr "#  "), h.text = [] := by
  refine ⟨by decide, ⟨1, [], 0⟩, by decide, rfl⟩

/-! ### C5: prepend -/

theorem rstripNl_append_nl (s : Str) : rstripNl (s ++ ['\n']) = rstripNl s := by
  unfold rstripNl
  rw [List.reverse_append]
  simp [List.dropWhile_cons]

theorem stripNlBoth_append_nl (s : Str) :
    stripNlBoth (s ++ ['\n']) = stripNlBoth s := by
  unfold stripNlBoth
  rw [List.dropWhile_append]
  rcases hdw : s.dropWhile (fun c => c == '\n') with _ | ⟨c, x⟩
  · simp [rstripNl]
  · simp only [List.isEmpty_cons, Bool.false_eq_true, if_false]
    exact rstripNl_append_nl (c :: x)

/-- C5: with the target heading located at line `i`, the `prepend`
operation of `_patch_heading_content` inserts one element at index
`i + 1` of the line list, namely the supplied content first normalized to
end with a newline and then stripped of its enclosing newline characters
(so the normalization nets out to stripping the enclosing newlines of the
original content). -/
theorem c5_prepend (cur target content : Str) (found : Heading)
    (hfound : findHeadingInStructure (parseHeadingStructure cur) target = some found) :
    patchHeadingContentPure cur (ofStr "prepend") target content =
      .ok (joinNl (pyInsert (splitNl cur) (found.line + 1)
        (stripNlBoth (if endsWithNl content then content else content ++ ['\n'])))) ∧
    stripNlBoth (if endsWithNl content then content else content ++ ['\n']) =
      stripNlBoth content := by
  constructor
  · simp only [patchHeadingContentPure, hfound]
    simp only [if_neg (show ¬ (ofStr "prepend" = ofStr "append") by decide),
      if_pos (rfl : (ofStr "prepend" : Str) = ofStr "prepend")]
    simp
  · by_cases hend : endsWithNl content
    · rw [if_pos hend]
    · rw [if_neg hend, stripNlBoth_append_nl]

/-- Witness for C5 at a concrete document and content. -/
theorem c5_prepend_witness :
    findHeadingInStructure (parseHeadingStructure (ofStr "## T\nbody"))
      (ofStr "T") = some ⟨2, ofStr "T", 0⟩ ∧
    patchHeadingContentPure (ofStr "## T\nbody") (ofStr "prepend") (ofStr "T")
        (ofStr "new\n") =
      .ok (joinNl (pyInsert (splitNl (ofStr "## T\nbody")) (0 + 1)
        (stripNlBoth (if endsWithNl (ofStr "new\n") then ofStr "new\n"
          else ofStr "new\n" ++ ['\n'])))) := by
  refine ⟨by decide, ?_⟩
  exact (c5_prepend (ofStr "## T\nbody") (ofStr "T") (ofStr "new\n")
    ⟨2, ofStr "T", 0⟩ (by decide)).1

/-! ### C8: frontmatter extraction and template resolution -/

/-- C8: a document without a well-formed leading `---` frontmatter block
(no leading `---`, or no closing delimiter) yields the empty map; the
document `---\ntemplate: Daily.md\n---\nBody` yields exactly
`{"template": "Daily.md"}`; and whenever the frontmatter holds a
`template` value, the resolver prefixes it with `Templates/` unless it
already starts with it — so that document resolves to
`Templates/Daily.md`. -/
theorem c8_frontmatter_template (content : Str)
    (hnofm : ¬ (ofStr "---").isPrefixOf content ∨ findClosing (content.drop 3) = none) :
    parseFrontmatter content = [] ∧
    parseFrontmatter (ofStr "---\ntemplate: Daily.md\n---\nBody") =
      [(ofStr "template", ofStr "Daily.md")] ∧
    (∀ read fp c v, dictGet (parseFrontmatter c) (ofStr "template") = some v →
      getTemplateForFile read fp c =
        some (if (ofStr "Templates/").isPrefixOf v then v else ofStr "Templates/" ++ v)) ∧
    (∀ read fp, getTemplateForFile read fp (ofStr "---\ntemplate: Daily.md\n---\nBody") =
      some (ofStr "Templates/Daily.md")) := by
  refine ⟨?_, by decide, ?_, ?_⟩
  · unfold parseFrontmatter
    rcases hnofm with h | h
    · rw [if_neg h]
    · by_cases hp : (ofStr "---").isPrefixOf content
      · rw [if_pos hp, h]
      · rw [if_neg hp]
  · intro read fp c v hv
    simp only [getTemplateForFile, hv]
  · intro read fp
    rfl

/-- Witness for C8 at a document with no frontmatter block. -/
theorem c8_frontmatter_template_witness :
    (¬ (ofStr "---").isPrefixOf (ofStr "# Just a heading") ∨
      findClosing ((ofStr "# Just a heading").drop 3) = none) ∧
    parseFrontmatter (ofStr "# Just a heading") = [] := by
  refine ⟨Or.inl (by decide), ?_⟩
  exact (c8_frontmatter_template (ofStr "# Just a heading") (Or.inl (by decide))).1

/-! ### C3: template-positioned insertion -/

/-- C3 counterexample: with the current heading list `[A@2, C@3]` that the
claim supplies, `_find_insertion_point` returns `none`, not the line index
2 of `C`: the current `C` at level 3 does not match the template boundary
`(C, 2)`, and the backward pass finds no current heading bounding `A`'s
section. -/
theorem c3_counterexample :
    findInsertionPoint [⟨2, ofStr "A", 0⟩, ⟨3, ofStr "C", 2⟩]
      [⟨2, ofStr "A", 0⟩, ⟨2, ofStr "B", 1⟩, ⟨2, ofStr "C", 2⟩]
      (ofStr "B") 2 = none ∧
    findInsertionPoint [⟨2, ofStr "A", 0⟩, ⟨3, ofStr "C", 2⟩]
      [⟨2, ofStr "A", 0⟩, ⟨2, ofStr "B", 1⟩, ⟨2, ofStr "C", 2⟩]
      (ofStr "B") 2 ≠ some 2 := by
  constructor <;> decide

/-- C3 (amended): `_find_insertion_point` finds the target (text, level)
in the template, retains as boundary only the first subsequent template
heading at the target level or shallower, and returns the line index of
the first current heading matching that boundary's (text, level) when one
exists.  In the concrete scenario, the current document
`## A\ncontent\n## C\ncontent` parses to headings `[A@2, C@2]`, and
inserting `B` at level 2 against template `## A\n## B\n## C` returns line
index 2, the line of `## C`. -/
theorem c3_template_position (cur tpl : List Heading) (target : Str) (lvl ti : Nat)
    (nb cm : Heading)
    (hti : tpl.findIdx? (fun h => h.text == target && h.level == lvl) = some ti)
    (hnb : (tpl.drop (ti + 1)).find? (fun h => h.level ≤ lvl) = some nb)
    (hcm : cur.find? (fun h => h.text == nb.text && h.level == nb.level) = some cm) :
    findInsertionPoint cur tpl target lvl = some cm.line ∧
    findInsertionPoint (parseHeadingStructure (ofStr "## A\ncontent\n## C\ncontent"))
      (parseHeadingStructure (ofStr "## A\n## B\n## C")) (ofStr "B") 2 = some 2 := by
  refine ⟨?_, by decide⟩
  simp only [findInsertionPoint, hti, hnb, hcm]
  rfl

/-- Witness for C3 (amended) at the claim's concrete scenario. -/
theorem c3_template_position_witness :
    (parseHeadingStructure (ofStr "## A\n## B\n## C")).findIdx?
      (fun h => h.text == ofStr "B" && h.level == 2) = some 1 ∧
    findInsertionPoint (parseHeadingStructure (ofStr "## A\ncontent\n## C\ncontent"))
      (parseHeadingStructure (ofStr "## A\n## B\n## C")) (ofStr "B") 2 =
      some (⟨2, ofStr "C", 2⟩ : Heading).line := by
  refine ⟨by decide, ?_⟩
  exact (c3_template_position (parseHeadingStructure (ofStr "## A\ncontent\n## C\ncontent"))
    (parseHeadingStructure (ofStr "## A\n## B\n## C")) (ofStr "B") 2 1
    ⟨2, ofStr "C", 2⟩ ⟨2, ofStr "C", 2⟩ (by decide) (by decide) (by decide)).1

/-! ### C6: unknown operation names -/

theorem createHeadingAndAppend_ok (read : Str → Option Str)
    (fp heading content : Str) (tplPath : Option Str) (useTpl : Bool) (cur : Str)
    (hread : read fp = some cur) :
    ∃ w, createHeadingAndAppend read fp heading content tplPath useTpl = .ok w := by
  simp only [createHeadingAndAppend, hread]
  rcases hvt : (if useTpl then
      createViaTemplate read fp cur ((splitCC heading).getLastD []) content
        ((splitCC heading).length + 1) tplPath
    else none) with _ | nc
  · exact ⟨_, rfl⟩
  · exact ⟨_, rfl⟩

/-- C6 counterexample: a patch call with heading target, the unknown
operation name `bogus`, an absent target heading and
`create_heading_if_missing = true` does not fail — the creation fallback
runs and the write primitive is invoked with the appended document. -/
theorem c6_counterexample :
    patchContent (fun p => if p = ofStr "f.md" then some [] else none)
      (ofStr "f.md") (ofStr "bogus") (ofStr "Todos") (ofStr "x") true none true =
      .ok (ofStr "f.md", ofStr "\n\n## Todosx") := by
  rfl

/-- C6 (amended): a heading-target patch with an operation name outside
{append, prepend, replace} fails with the fatal `invalidOperation` error
— and no write, since writes occur only in `ok` results — whenever the
target heading is present; when it is absent it fails with the
heading-not-found error if creation is disabled, but when creation is
enabled the operation name is never validated: the creation path runs and
performs a write. -/
theorem c6_invalid_operation (read : Str → Option Str)
    (fp op target content : Str) (create : Bool) (tplPath : Option Str)
    (useTpl : Bool) (cur : Str)
    (hread : read fp = some cur)
    (hop : op ≠ ofStr "append" ∧ op ≠ ofStr "prepend" ∧ op ≠ ofStr "replace") :
    ((∃ found, findHeadingInStructure (parseHeadingStructure cur) target = some found) →
      patchContent read fp op target content create tplPath useTpl =
        .error (.invalidOperation op)) ∧
    (findHeadingInStructure (parseHeadingStructure cur) target = none → create = false →
      patchContent read fp op target content create tplPath useTpl =
        .error (.notFoundError target)) ∧
    (findHeadingInStructure (parseHeadingStructure cur) target = none → create = true →
      ∃ w, patchContent read fp op target content create tplPath useTpl = .ok w) := by
  refine ⟨?_, ?_, ?_⟩
  · rintro ⟨found, hfound⟩
    have hp : patchHeadingContentPure cur op target content =
        .error (.invalidOperation op) := by
      simp only [patchHeadingContentPure, hfound, if_neg hop.1, if_neg hop.2.1,
        if_neg hop.2.2]
    simp only [patchContent, hread, hp]
  · intro hnone hcf
    have hp : patchHeadingContentPure cur op target content =
        .error (.headingNotFound target) := by
      simp only [patchHeadingContentPure, hnone]
    simp only [patchContent, hread, hp, hcf, Bool.false_eq_true, if_false]
  · intro hnone hct
    have hp : patchHeadingContentPure cur op target content =
        .error (.headingNotFound target) := by
      simp only [patchHeadingContentPure, hnone]
    simp only [patchContent, hread, hp, hct, if_true]
    exact createHeadingAndAppend_ok read fp target content tplPath useTpl cur hread

/-- Witness for C6 (amended): a vault where the heading is present and a
bogus operation is rejected with `invalidOperation`. -/
theorem c6_invalid_operation_witness :
    ((fun p => if p = ofStr "n.md" then some (ofStr "## T\nbody") else none)
        (ofStr "n.md") = some (ofStr "## T\nbody")) ∧
    (ofStr "bogus" ≠ ofStr "append" ∧ ofStr "bogus" ≠ ofStr "prepend" ∧
      ofStr "bogus" ≠ ofStr "replace") ∧
    patchContent (fun p => if p = ofStr "n.md" then some (ofStr "## T\nbody") else none)
      (ofStr "n.md") (ofStr "bogus") (ofStr "T") (ofStr "x") true none true =
      .error (.invalidOperation (ofStr "bogus")) := by
  refine ⟨by decide, ⟨by decide, by decide, by decide⟩, ?_⟩
  exact (c6_invalid_operation
    (fun p => if p = ofStr "n.md" then some (ofStr "## T\nbody") else none)
    (ofStr "n.md") (ofStr "bogus") (ofStr "T") (ofStr "x") true none true
    (ofStr "## T\nbody") (by decide) ⟨by decide, by decide, by decide⟩).1
    ⟨⟨2, ofStr "T", 0⟩, by decide⟩

/-! ### C7: level and text of a created heading -/

theorem joinNl_decomp (ls : List Str) (x : Str) (hx : x ∈ ls) :
    ∃ pre post, joinNl ls = pre ++ x ++ post := by
  induction ls with
  | nil => simp at hx
  | cons y rest ih =>
    rcases rest with _ | ⟨r2, rest2⟩
    · simp only [List.mem_singleton] at hx
      subst hx
      exact ⟨[], [], by simp [joinNl]⟩
    · rcases List.mem_cons.mp hx with h | h
      · subst h
        exact ⟨[], '\n' :: joinNl (r2 :: rest2), by simp [joinNl]⟩
      · rcases ih h with ⟨pre, post, hpre⟩
        refine ⟨y ++ '\n' :: pre, post, ?_⟩
        rw [show joinNl (y :: r2 :: rest2) = y ++ '\n' :: joinNl (r2 :: rest2) from rfl,
          hpre]
        simp

theorem mem_pyInsert (l : List α) (i : Nat) (x : α) : x ∈ pyInsert l i x := by
  simp [pyInsert]

theorem createViaTemplate_eq_some {read : Str → Option Str}
    {fp cur leaf content : Str} {lvl : Nat} {tplPath : Option Str} {nc : Str}
    (h : createViaTemplate read fp cur leaf content lvl tplPath = some nc) :
    ∃ ip, nc = insertHeadingAtPosition cur leaf content ip lvl := by
  simp only [createViaTemplate] at h
  split at h
  · cases h
  · split at h
    · cases h
    · split at h
      · cases h
      · rename_i ip hip
        injection h with h2
        exact ⟨ip, h2.symm⟩

theorem insertHeadingAtPosition_decomp (cur leaf content : Str) (ip lvl : Nat) :
    ∃ pre post, insertHeadingAtPosition cur leaf content ip lvl =
      pre ++ ('\n' :: (List.replicate lvl '#' ++ ' ' :: (leaf ++ content))) ++ post := by
  have helem : ('\n' :: (List.replicate lvl '#' ++ ' ' :: (leaf ++ content ++ ['\n'])))
      = ('\n' :: (List.replicate lvl '#' ++ ' ' :: (leaf ++ content))) ++ ['\n'] := by
    simp
  rcases joinNl_decomp (pyInsert (splitNl cur) ip
      ('\n' :: (List.replicate lvl '#' ++ ' ' :: (leaf ++ content ++ ['\n']))))
      ('\n' :: (List.replicate lvl '#' ++ ' ' :: (leaf ++ content ++ ['\n'])))
      (mem_pyInsert _ _ _) with ⟨pre, post, hpp⟩
  refine ⟨pre, '\n' :: post, ?_⟩
  rw [insertHeadingAtPosition, hpp, helem]
  simp

/-- C7: whatever the document state (in particular whether `Parent`
exists), the created heading's level is the number of `::`-separated
segments of the target plus one and its display text is the leaf segment:
the written document contains `"\n" ++ "#" * level ++ " " ++ leaf ++
content` on both creation paths, and concretely `Todos` gives level 2
with text `Todos` (so `## Todos`) while `Parent::Child` gives level 3
with text `Child` (so `### Child`). -/
theorem c7_created_heading_level (read : Str → Option Str)
    (fp heading content : Str) (tplPath : Option Str) (useTpl : Bool) (cur : Str)
    (hread : read fp = some cur) :
    (∃ w pre post, createHeadingAndAppend read fp heading content tplPath useTpl =
        .ok (fp, w) ∧
      w = pre ++ ('\n' :: (List.replicate ((splitCC heading).length + 1) '#'
        ++ ' ' :: ((splitCC heading).getLastD [] ++ content))) ++ post) ∧
    (splitCC (ofStr "Todos")).length + 1 = 2 ∧
    (splitCC (ofStr "Todos")).getLastD [] = ofStr "Todos" ∧
    List.replicate 2 '#' ++ ' ' :: (ofStr "Todos") = ofStr "## Todos" ∧
    (splitCC (ofStr "Parent::Child")).length + 1 = 3 ∧
    (splitCC (ofStr "Parent::Child")).getLastD [] = ofStr "Child" ∧
    List.replicate 3 '#' ++ ' ' :: (ofStr "Child") = ofStr "### Child" := by
  refine ⟨?_, by decide, by decide, by decide, by decide, by decide, by decide⟩
  simp only [createHeadingAndAppend, hread]
  rcases hvt : (if useTpl then
      createViaTemplate read fp cur ((splitCC heading).getLastD []) content
        ((splitCC heading).length + 1) tplPath
    else none) with _ | nc
  · refine ⟨_, pyRstrip cur ++ ['\n'], [], rfl, ?_⟩
    simp [ofStr]
  · have hsome : createViaTemplate read fp cur ((splitCC heading).getLastD []) content
        ((splitCC heading).length + 1) tplPath = some nc := by
      rcases useTpl with _ | _
      · simp at hvt
      · simpa using hvt
    rcases createViaTemplate_eq_some hsome with ⟨ip, hip⟩
    rcases insertHeadingAtPosition_decomp cur ((splitCC heading).getLastD []) content ip
      ((splitCC heading).length + 1) with ⟨pre, post, hpp⟩
    exact ⟨nc, pre, post, rfl, by rw [hip, hpp]⟩

/-- Witness for C7: creating `Parent::Child` over a document without
`Parent` places `### Child` in the written text. -/
theorem c7_created_heading_level_witness :
    ((fun p => if p = ofStr "n.md" then some (ofStr "# My Note") else none)
        (ofStr "n.md") = some (ofStr "# My Note")) ∧
    (∃ w pre post,
      createHeadingAndAppend
          (fun p => if p = ofStr "n.md" then some (ofStr "# My Note") else none)
          (ofStr "n.md") (ofStr "Parent::Child") (ofStr "\ntask") none true =
        .ok (ofStr "n.md", w) ∧
      w = pre ++ ('\n' :: (List.replicate ((splitCC (ofStr "Parent::Child")).length + 1) '#'
        ++ ' ' :: ((splitCC (ofStr "Parent::Child")).getLastD [] ++ ofStr "\ntask"))) ++ post) := by
  refine ⟨by decide, ?_⟩
  exact (c7_created_heading_level
    (fun p => if p = ofStr "n.md" then some (ofStr "# My Note") else none)
    (ofStr "n.md") (ofStr "Parent::Child") (ofStr "\ntask") none true
    (ofStr "# My Note") (by decide)).1

/-! ### C10: content concatenated onto the created heading line -/

theorem heading_line_mem_splitNl_mid (lvl : Nat) (leaf content : Str)
    (hleaf : '\n' ∉ leaf) :
    ('\n' ∉ content →
      (List.replicate lvl '#' ++ ' ' :: (leaf ++ content))
        ∈ splitNl (List.replicate lvl '#' ++ ' ' :: (leaf ++ content))) ∧
    ((ofStr "\n").isPrefixOf content →
      (List.replicate lvl '#' ++ ' ' :: leaf)
        ∈ splitNl (List.replicate lvl '#' ++ ' ' :: (leaf ++ content))) := by
  constructor
  · intro hc
    rw [splitNl_of_not_mem ?_]
    · exact List.mem_singleton.mpr rfl
    · intro hmem
      simp only [List.mem_append, List.mem_cons, List.mem_replicate] at hmem
      rcases hmem with ⟨_, h⟩ | h | h | h
      · exact absurd h (by decide)
      · exact absurd h (by decide)
      · exact hleaf h
      · exact hc h
  · intro hpre
    rcases List.isPrefixOf_iff_prefix.mp hpre with ⟨t, ht⟩
    have hcontent : content = '\n' :: t := by
      rw [← ht]; rfl
    subst hcontent
    have hsplit : List.replicate lvl '#' ++ ' ' :: (leaf ++ '\n' :: t)
        = (List.replicate lvl '#' ++ ' ' :: leaf) ++ '\n' :: t := by simp
    rw [hsplit, splitNl_append_nl, splitNl_of_not_mem ?_]
    · exact List.mem_append_left _ (List.mem_singleton.mpr rfl)
    · intro hmem
      simp only [List.mem_append, List.mem_cons, List.mem_replicate] at hmem
      rcases hmem with ⟨_, h⟩ | h | h
      · exact absurd h (by decide)
      · exact absurd h (by decide)
      · exact hleaf h

theorem mem_splitNl_append_two_nl (R mid x : Str) (hx : x ∈ splitNl mid) :
    x ∈ splitNl (R ++ '\n' :: '\n' :: mid) := by
  rw [splitNl_append_nl]
  refine List.mem_append_right _ ?_
  rw [show splitNl ('\n' :: mid) = [] :: splitNl mid from by simp [splitNl]]
  exact List.mem_cons_of_mem _ hx

theorem mem_splitNl_newSection (lvl : Nat) (leaf content x : Str)
    (hx : x ∈ splitNl (List.replicate lvl '#' ++ ' ' :: (leaf ++ content))) :
    x ∈ splitNl ('\n' :: (List.replicate lvl '#' ++ ' ' :: (leaf ++ content ++ ['\n']))) := by
  have hsh : List.replicate lvl '#' ++ ' ' :: (leaf ++ content ++ ['\n'])
      = (List.replicate lvl '#' ++ ' ' :: (leaf ++ content)) ++ '\n' :: [] := by simp
  rw [show splitNl ('\n' :: (List.replicate lvl '#' ++ ' ' :: (leaf ++ content ++ ['\n'])))
      = [] :: splitNl (List.replicate lvl '#' ++ ' ' :: (leaf ++ content ++ ['\n']))
    from by simp [splitNl], hsh, splitNl_append_nl]
  exact List.mem_cons_of_mem _ (List.mem_append_left _ hx)

theorem insertHeadingAtPosition_line_mem (cur leaf content : Str) (ip lvl : Nat)
    (x : Str) (hx : x ∈ splitNl (List.replicate lvl '#' ++ ' ' :: (leaf ++ content))) :
    x ∈ splitNl (insertHeadingAtPosition cur leaf content ip lvl) := by
  rw [insertHeadingAtPosition]
  exact mem_splitNl_joinNl _ _ (mem_pyInsert _ _ _) x
    (mem_splitNl_newSection lvl leaf content x hx)

/-- C10: in both heading-creation paths the new heading text and the
supplied content are concatenated with no separator, so when the content
does not start with a newline it lands on the heading's own line of the
written document; a line break separates them only when the content
itself starts with a newline.  Concretely, creating `Todos` with content
`task` writes the line `## Todostask`. -/
theorem c10_content_glued (read : Str → Option Str)
    (fp heading content : Str) (tplPath : Option Str) (useTpl : Bool) (cur : Str)
    (hread : read fp = some cur)
    (hleaf : '\n' ∉ (splitCC heading).getLastD []) :
    (∃ w, createHeadingAndAppend read fp heading content tplPath useTpl = .ok (fp, w) ∧
      ('\n' ∉ content →
        (List.replicate ((splitCC heading).length + 1) '#'
          ++ ' ' :: ((splitCC heading).getLastD [] ++ content)) ∈ splitNl w) ∧
      ((ofStr "\n").isPrefixOf content →
        (List.replicate ((splitCC heading).length + 1) '#'
          ++ ' ' :: (splitCC heading).getLastD []) ∈ splitNl w)) ∧
    (∀ ip lvl, '\n' ∉ content →
      (List.replicate lvl '#' ++ ' ' :: ((splitCC heading).getLastD [] ++ content))
        ∈ splitNl (insertHeadingAtPosition cur ((splitCC heading).getLastD [])
            content ip lvl)) ∧
    createHeadingAndAppend (fun p => if p = ofStr "t.md" then some [] else none)
      (ofStr "t.md") (ofStr "Todos") (ofStr "task") none false =
      .ok (ofStr "t.md", ofStr "\n\n## Todostask") ∧
    ofStr "## Todostask" = List.replicate 2 '#' ++ ' ' :: (ofStr "Todos" ++ ofStr "task") := by
  refine ⟨?_, ?_, by rfl, by decide⟩
  · simp only [createHeadingAndAppend, hread]
    rcases hvt : (if useTpl then
        createViaTemplate read fp cur ((splitCC heading).getLastD []) content
          ((splitCC heading).length + 1) tplPath
      else none) with _ | nc
    · refine ⟨_, rfl, ?_, ?_⟩
      · intro hc
        have hx := (heading_line_mem_splitNl_mid ((splitCC heading).length + 1)
          ((splitCC heading).getLastD []) content hleaf).1 hc
        have hw : pyRstrip cur ++ (ofStr "\n\n" ++ List.replicate ((splitCC heading).length + 1) '#'
            ++ ' ' :: ((splitCC heading).getLastD [] ++ content))
            = pyRstrip cur ++ '\n' :: '\n' :: (List.replicate ((splitCC heading).length + 1) '#'
              ++ ' ' :: ((splitCC heading).getLastD [] ++ content)) := by
          simp [ofStr]
        rw [hw]
        exact mem_splitNl_append_two_nl _ _ _ hx
      · intro hpre
        have hx := (heading_line_mem_splitNl_mid ((splitCC heading).length + 1)
          ((splitCC heading).getLastD []) content hleaf).2 hpre
        have hw : pyRstrip cur ++ (ofStr "\n\n" ++ List.replicate ((splitCC heading).length + 1) '#'
            ++ ' ' :: ((splitCC heading).getLastD [] ++ content))
            = pyRstrip cur ++ '\n' :: '\n' :: (List.replicate ((splitCC heading).length + 1) '#'
              ++ ' ' :: ((splitCC heading).getLastD [] ++ content)) := by
          simp [ofStr]
        rw [hw]
        exact mem_splitNl_append_two_nl _ _ _ hx
    · have hsome : createViaTemplate read fp cur ((splitCC heading).getLastD []) content
          ((splitCC heading).length + 1) tplPath = some nc := by
        rcases useTpl with _ | _
        · simp at hvt
        · simpa using hvt
      rcases createViaTemplate_eq_some hsome with ⟨ip, hip⟩
      refine ⟨nc, rfl, ?_, ?_⟩
      · intro hc
        rw [hip]
        exact insertHeadingAtPosition_line_mem cur _ content ip _ _
          ((heading_line_mem_splitNl_mid _ _ content hleaf).1 hc)
      · intro hpre
        rw [hip]
        exact insertHeadingAtPosition_line_mem cur _ content ip _ _
          ((heading_line_mem_splitNl_mid _ _ content hleaf).2 hpre)
  · intro ip lvl hc
    exact insertHeadingAtPosition_line_mem cur _ content ip lvl _
      ((heading_line_mem_splitNl_mid lvl _ content hleaf).1 hc)

/-- Witness for C10: creating `Todos` with content `task` over an empty
document puts `## Todostask` on one line of the written text. -/
theorem c10_content_glued_witness :
    ((fun p => if p = ofStr "t2.md" then some ([] : Str) else none) (ofStr "t2.md")
      = some ([] : Str)) ∧
    ('\n' ∉ (splitCC (ofStr "Todos")).getLastD []) ∧
    (∃ w, createHeadingAndAppend (fun p => if p = ofStr "t2.md" then some ([] : Str) else none)
        (ofStr "t2.md") (ofStr "Todos") (ofStr "task") none false = .ok (ofStr "t2.md", w) ∧
      ('\n' ∉ ofStr "task" →
        (List.replicate ((splitCC (ofStr "Todos")).length + 1) '#'
          ++ ' ' :: ((splitCC (ofStr "Todos")).getLastD [] ++ ofStr "task")) ∈ splitNl w) ∧
      ((ofStr "\n").isPrefixOf (ofStr "task") →
        (List.replicate ((splitCC (ofStr "Todos")).length + 1) '#'
          ++ ' ' :: (splitCC (ofStr "Todos")).getLastD []) ∈ splitNl w)) := by
  refine ⟨by decide, by decide, ?_⟩
  exact (c10_content_glued (fun p => if p = ofStr "t2.md" then some ([] : Str) else none)
    (ofStr "t2.md") (ofStr "Todos") (ofStr "task") none false []
    (by decide) (by decide)).1

/-! ### C4: replace -/

theorem findChildScan_mem {pl pn : Nat} {z : Str} {l : List Heading} {c : Heading}
    (h : findChildScan pl pn z l = some c) : c ∈ l := by
  induction l with
  | nil => cases h
  | cons x rest ih =>
    simp only [findChildScan] at h
    split at h
    · exact List.mem_cons_of_mem _ (ih h)
    · split at h
      · cases h
      · split at h
        · injection h with h2
          exact h2 ▸ List.mem_cons_self _ _
        · exact List.mem_cons_of_mem _ (ih h)

theorem findChildScan_line_gt {pl pn : Nat} {z : Str} {l : List Heading} {c : Heading}
    (h : findChildScan pl pn z l = some c) : pn < c.line := by
  induction l with
  | nil => cases h
  | cons x rest ih =>
    simp only [findChildScan] at h
    split at h
    · exact ih h
    · split at h
      · cases h
      · split at h
        · injection h with h2
          subst h2
          omega
        · exact ih h

theorem findChildScan_append_left {pl pn : Nat} {z : Str} {A B : List Heading}
    {c : Heading} (h : findChildScan pl pn z A = some c) :
    findChildScan pl pn z (A ++ B) = some c := by
  induction A with
  | nil => cases h
  | cons x rest ih =>
    simp only [findChildScan] at h ⊢
    split at h
    · rename_i h1
      rw [if_pos h1]
      exact ih h
    · rename_i h1
      rw [if_neg h1]
      split at h
      · cases h
      · rename_i h2
        rw [if_neg h2]
        split at h
        · rename_i h3
          rw [if_pos h3]
          exact h
        · rename_i h3
          rw [if_neg h3]
          exact ih h

theorem findChildScan_resolve_left {pl pn : Nat} {z : Str} {A B : List Heading}
    {c : Heading} (h : findChildScan pl pn z (A ++ B) = some c)
    (hB : ∀ x ∈ B, c.line < x.line) : findChildScan pl pn z A = some c := by
  induction A with
  | nil =>
    simp only [List.nil_append] at h
    have := (hB c (findChildScan_mem h))
    omega
  | cons x rest ih =>
    simp only [List.cons_append, findChildScan] at h ⊢
    split at h
    · rename_i h1
      rw [if_pos h1]
      exact ih h
    · rename_i h1
      rw [if_neg h1]
      split at h
      · cases h
      · rename_i h2
        rw [if_neg h2]
        split at h
        · rename_i h3
          rw [if_pos h3]
          exact h
        · rename_i h3
          rw [if_neg h3]
          exact ih h

theorem find?_resolve_left {p : Heading → Bool} {A B : List Heading} {c : Heading}
    (h : (A ++ B).find? p = some c) (hB : ∀ x ∈ B, c.line < x.line) :
    A.find? p = some c := by
  rw [List.find?_append] at h
  rcases hA : A.find? p with _ | y
  · rw [hA] at h
    simp only [Option.none_or] at h
    have := hB c (List.mem_of_find?_eq_some h)
    omega
  · rw [hA] at h
    simpa using h

theorem find?_append_left_some {p : Heading → Bool} {A : List Heading}
    (B : List Heading) {c : Heading} (h : A.find? p = some c) :
    (A ++ B).find? p = some c := by
  rw [List.find?_append, h]
  rfl

/-- If the locator resolves a target inside the common prefix `A` (all
headings of the differing suffixes lie on later lines than the result and
the parent), the result is unchanged when the suffix is replaced. -/
theorem findHeadingInStructure_append_congr {A B1 B2 : List Heading}
    {target : Str} {c : Heading}
    (h : findHeadingInStructure (A ++ B1) target = some c)
    (hB1 : ∀ x ∈ B1, c.line < x.line) :
    findHeadingInStructure (A ++ B2) target = some c := by
  simp only [findHeadingInStructure] at h ⊢
  by_cases hlen : (splitCC target).length = 1
  · rw [if_pos hlen] at h ⊢
    exact find?_append_left_some B2 (find?_resolve_left h hB1)
  · rw [if_neg hlen] at h ⊢
    rcases hpar : (A ++ B1).find? (fun h2 => h2.text == (splitCC target).headD [])
      with _ | parent
    · rw [hpar] at h
      cases h
    · rw [hpar] at h
      have hscan : findChildScan parent.level parent.line
          ((splitCC target).getLastD []) (A ++ B1) = some c := h
      have hpline : parent.line < c.line := findChildScan_line_gt hscan
      have hparA : A.find? (fun h2 => h2.text == (splitCC target).headD []) = some parent :=
        find?_resolve_left hpar (fun x hx => Nat.lt_trans hpline (hB1 x hx))
      rw [find?_append_left_some B2 hparA]
      exact findChildScan_append_left (findChildScan_resolve_left hscan hB1)

theorem findHeadingBoundary_append_skip (lines2 : List Str) (X Y : List Heading)
    (i L : Nat) (hX : ∀ h ∈ X, ¬(i < h.line ∧ h.level ≤ L)) :
    findHeadingBoundary lines2 (X ++ Y) i L = findHeadingBoundary lines2 Y i L := by
  induction X with
  | nil => rfl
  | cons x rest ih =>
    simp only [List.cons_append, findHeadingBoundary]
    rw [if_neg (hX x (List.mem_cons_self _ _))]
    exact ih (fun h hm => hX h (List.mem_cons_of_mem _ hm))

theorem findHeadingInStructure_mem {hs : List Heading} {target : Str} {c : Heading}
    (h : findHeadingInStructure hs target = some c) : c ∈ hs := by
  simp only [findHeadingInStructure] at h
  by_cases hlen : (splitCC target).length = 1
  · rw [if_pos hlen] at h
    exact List.mem_of_find?_eq_some h
  · rw [if_neg hlen] at h
    rcases hpar : hs.find? (fun h2 => h2.text == (splitCC target).headD []) with _ | parent
    · rw [hpar] at h
      cases h
    · rw [hpar] at h
      exact findChildScan_mem h

/-- The line list produced by the `replace` branch of
`_patch_heading_content` for a target located at line `i`, level `L`. -/
def replaceLines (cur content : Str) (i L : Nat) : List Str :=
  (splitNl cur).take (i + 1) ++ splitNl (stripNlBoth content) ++
    (splitNl cur).drop (findHeadingBoundary (splitNl cur) (parseHeadingStructure cur) i L)

theorem replaceLines_no_nl (cur content : Str) (i L : Nat) :
    ∀ l ∈ replaceLines cur content i L, '\n' ∉ l := by
  intro l hl
  simp only [replaceLines, List.mem_append] at hl
  rcases hl with (hl | hl) | hl
  · exact not_mem_of_mem_splitNl (List.mem_of_mem_take hl)
  · exact not_mem_of_mem_splitNl hl
  · exact not_mem_of_mem_splitNl (List.mem_of_mem_drop hl)

theorem replaceLines_ne_nil (cur content : Str) (i L : Nat)
    (hi : i < (splitNl cur).length) : replaceLines cur content i L ≠ [] := by
  have h1 : ((splitNl cur).take (i + 1)).length = i + 1 := by
    rw [List.length_take]
    omega
  intro h
  have h2 := congrArg List.length h
  simp only [replaceLines, List.length_append, h1, List.length_nil] at h2
  omega

theorem splitNl_joinNl_replaceLines (cur content : Str) (i L : Nat)
    (hi : i < (splitNl cur).length) :
    splitNl (joinNl (replaceLines cur content i L)) = replaceLines cur content i L :=
  splitNl_joinNl _ (replaceLines_ne_nil cur content i L hi)
    (replaceLines_no_nl cur content i L)

/-- C4 (amended): with the target located at line `i`, level `L`, and
boundary `b`, the `replace` operation produces exactly the original lines
up to and including line `i`, then the lines of the content stripped of
enclosing newlines, then the original lines from `b` on, unchanged; the
serialization round-trips, and — provided no line of the stripped content
itself parses as a heading of level `≤ L` — re-parsing the serialized
result still resolves the target to line `i`, the new boundary sits right
after the spliced content, and the lines strictly between the heading and
that boundary are exactly the stripped content's lines. -/
theorem c4_replace (cur target content : Str) (L i : Nat) (t : Str)
    (hfound : findHeadingInStructure (parseHeadingStructure cur) target =
      some ⟨L, t, i⟩)
    (hcontent : ∀ cl ∈ splitNl (stripNlBoth content), ∀ k tx,
      matchHeadingLine cl = some (k, tx) → L < k) :
    patchHeadingContentPure cur (ofStr "replace") target content =
      .ok (joinNl (replaceLines cur content i L)) ∧
    splitNl (joinNl (replaceLines cur content i L)) = replaceLines cur content i L ∧
    findHeadingInStructure (parseHeadingStructure (joinNl (replaceLines cur content i L)))
      target = some ⟨L, t, i⟩ ∧
    findHeadingBoundary (splitNl (joinNl (replaceLines cur content i L)))
        (parseHeadingStructure (joinNl (replaceLines cur content i L))) i L =
      i + 1 + (splitNl (stripNlBoth content)).length ∧
    ((splitNl (joinNl (replaceLines cur content i L))).drop (i + 1)).take
        (i + 1 + (splitNl (stripNlBoth content)).length - (i + 1)) =
      splitNl (stripNlBoth content) := by
  have hmem0 : (⟨L, t, i⟩ : Heading) ∈ headingsFrom (splitNl cur) 0 :=
    findHeadingInStructure_mem hfound
  have hi : i < (splitNl cur).length := by
    have h2 := (line_bounds_of_mem_headingsFrom hmem0).2
    simpa using h2
  have hPlen : ((splitNl cur).take (i + 1)).length = i + 1 := by
    rw [List.length_take]
    omega
  have hrt : splitNl (joinNl (replaceLines cur content i L)) =
      replaceLines cur content i L :=
    splitNl_joinNl_replaceLines cur content i L hi
  have hps2 : parseHeadingStructure (joinNl (replaceLines cur content i L)) =
      headingsFrom (replaceLines cur content i L) 0 := by
    simp only [parseHeadingStructure]
    rw [hrt]
  have hconc1 : patchHeadingContentPure cur (ofStr "replace") target content =
      .ok (joinNl (replaceLines cur content i L)) := by
    simp only [patchHeadingContentPure, hfound]
    rw [if_neg (show ¬ (ofStr "replace" = ofStr "append") by decide),
      if_neg (show ¬ (ofStr "replace" = ofStr "prepend") by decide)]
    rfl
  have holdsplit : headingsFrom (splitNl cur) 0 =
      headingsFrom ((splitNl cur).take (i + 1)) 0 ++
        headingsFrom ((splitNl cur).drop (i + 1)) (i + 1) := by
    conv_lhs => rw [← List.take_append_drop (i + 1) (splitNl cur)]
    rw [headingsFrom_append, Nat.zero_add, hPlen]
  have hA : ∀ h ∈ headingsFrom ((splitNl cur).take (i + 1)) 0, h.line ≤ i := by
    intro h hm
    have h3 := (line_bounds_of_mem_headingsFrom hm).2
    rw [hPlen] at h3
    omega
  have hMidLvl : ∀ h ∈ headingsFrom (splitNl (stripNlBoth content)) (i + 1),
      L < h.level := by
    intro h hm
    obtain ⟨k2, t2, n2⟩ := h
    rcases (mem_headingsFrom_iff _ _ _ _ _).mp hm with ⟨j, l, hj, hmatch, hn⟩
    have hcl : l ∈ splitNl (stripNlBoth content) := by
      rcases List.getElem?_eq_some_iff.mp hj with ⟨hjl, hje⟩
      exact hje ▸ List.getElem_mem hjl
    exact hcontent l hcl k2 t2 hmatch
  have hfound2 : findHeadingInStructure
      (headingsFrom ((splitNl cur).take (i + 1)) 0 ++
        headingsFrom ((splitNl cur).drop (i + 1)) (i + 1)) target = some ⟨L, t, i⟩ := by
    rw [← holdsplit]
    exact hfound
  have hc5 : ((replaceLines cur content i L).drop (i + 1)).take
      (i + 1 + (splitNl (stripNlBoth content)).length - (i + 1)) =
      splitNl (stripNlBoth content) := by
    simp only [replaceLines]
    rw [List.append_assoc, List.drop_left' hPlen,
      show i + 1 + (splitNl (stripNlBoth content)).length - (i + 1)
        = (splitNl (stripNlBoth content)).length by omega,
      List.take_left' rfl]
  have hmain : findHeadingInStructure (headingsFrom (replaceLines cur content i L) 0)
        target = some ⟨L, t, i⟩ ∧
      findHeadingBoundary (replaceLines cur content i L)
        (headingsFrom (replaceLines cur content i L) 0) i L =
        i + 1 + (splitNl (stripNlBoth content)).length := by
    rcases findHeadingBoundary_first (splitNl cur) (parseHeadingStructure cur) i L
        (headingsFrom_pairwise (splitNl cur) 0) with
      ⟨hb, hbmem, hbi2, hbl, hbeq, _⟩ | ⟨hnoneq, hbeq⟩
    · obtain ⟨bL, bT, bN⟩ := hb
      simp only at hbi2 hbl hbeq
      rcases (mem_headingsFrom_iff (splitNl cur) 0 bL bT bN).mp hbmem with
        ⟨j, lb, hj, hmatchb, hnb⟩
      have hj2 : (splitNl cur)[bN]? = some lb := by
        rw [show bN = j by omega]
        exact hj
      have hdropb : (splitNl cur).drop bN = lb :: (splitNl cur).drop (bN + 1) := by
        rcases List.getElem?_eq_some_iff.mp hj2 with ⟨hlt2, hget⟩
        rw [List.drop_eq_getElem_cons hlt2, hget]
      have hTnew : headingsFrom ((splitNl cur).drop bN)
          (i + 1 + (splitNl (stripNlBoth content)).length) =
          (⟨bL, bT, i + 1 + (splitNl (stripNlBoth content)).length⟩ : Heading) ::
            headingsFrom ((splitNl cur).drop (bN + 1))
              (i + 1 + (splitNl (stripNlBoth content)).length + 1) := by
        rw [hdropb]
        simp only [headingsFrom, hmatchb]
      have hsplitNew : headingsFrom (replaceLines cur content i L) 0 =
          headingsFrom ((splitNl cur).take (i + 1)) 0 ++
            (headingsFrom (splitNl (stripNlBoth content)) (i + 1) ++
              headingsFrom ((splitNl cur).drop bN)
                (i + 1 + (splitNl (stripNlBoth content)).length)) := by
        simp only [replaceLines, hbeq]
        rw [List.append_assoc, headingsFrom_append, headingsFrom_append,
          Nat.zero_add, hPlen]
      constructor
      · rw [hsplitNew]
        refine findHeadingInStructure_append_congr hfound2 ?_
        intro x hx
        have h4 := (line_bounds_of_mem_headingsFrom hx).1
        show i < x.line
        omega
      · rw [hsplitNew]
        rw [findHeadingBoundary_append_skip _ _ _ i L (fun h hm => by
          have := hA h hm
          omega)]
        rw [findHeadingBoundary_append_skip _ _ _ i L (fun h hm => by
          have := hMidLvl h hm
          omega)]
        rw [hTnew]
        simp only [findHeadingBoundary]
        rw [if_pos ⟨by omega, by simpa using hbl⟩]
    · have hdropb : (splitNl cur).drop ((splitNl cur).length) = [] :=
        List.drop_length _
      have hsplitNew : headingsFrom (replaceLines cur content i L) 0 =
          headingsFrom ((splitNl cur).take (i + 1)) 0 ++
            (headingsFrom (splitNl (stripNlBoth content)) (i + 1) ++ []) := by
        simp only [replaceLines, hbeq, hdropb]
        rw [List.append_assoc, headingsFrom_append, headingsFrom_append,
          Nat.zero_add, hPlen]
        rfl
      constructor
      · rw [hsplitNew]
        refine findHeadingInStructure_append_congr hfound2 ?_
        intro x hx
        have h4 := (line_bounds_of_mem_headingsFrom hx).1
        show i < x.line
        omega
      · rw [hsplitNew]
        rw [findHeadingBoundary_append_skip _ _ _ i L (fun h hm => by
          have := hA h hm
          omega)]
        rw [findHeadingBoundary_append_skip _ _ _ i L (fun h hm => by
          have := hMidLvl h hm
          omega)]
        show findHeadingBoundary (replaceLines cur content i L) [] i L = _
        simp only [findHeadingBoundary, replaceLines, hbeq, hdropb,
          List.length_append, hPlen, List.length_nil]
        omega
  refine ⟨hconc1, hrt, ?_, ?_, by rw [hrt]; exact hc5⟩
  · rw [hps2]
    exact hmain.1
  · rw [hrt, hps2]
    exact hmain.2

/-- C4 counterexample: replacing the section of `T` (level 2, line 0) in
`## T\nold` with the content `# X` yields `## T\n# X`; re-parsing, the
first heading at level ≤ 2 after line 0 is the spliced `# X` at line 1,
so the content strictly between the target heading and the next
same-or-higher heading is empty and does not match the supplied
replacement — refuting the claim for arbitrary content strings. -/
theorem c4_counterexample :
    patchHeadingContentPure (ofStr "## T\nold") (ofStr "replace") (ofStr "T")
      (ofStr "# X") = .ok (ofStr "## T\n# X") ∧
    findHeadingBoundary (splitNl (ofStr "## T\n# X"))
      (parseHeadingStructure (ofStr "## T\n# X")) 0 2 = 1 ∧
    ((splitNl (ofStr "## T\n# X")).drop (0 + 1)).take (1 - (0 + 1)) = ([] : List Str) ∧
    ([] : List Str) ≠ splitNl (stripNlBoth (ofStr "# X")) := by
  refine ⟨rfl, by decide, by decide, by decide⟩

/-- Witness for C4 (amended) at a concrete document and replacement. -/
theorem c4_replace_witness :
    findHeadingInStructure (parseHeadingStructure (ofStr "## T\nold\nmore\n# Next\nz"))
      (ofStr "T") = some ⟨2, ofStr "T", 0⟩ ∧
    patchHeadingContentPure (ofStr "## T\nold\nmore\n# Next\nz") (ofStr "replace")
      (ofStr "T") (ofStr "body") =
      .ok (joinNl (replaceLines (ofStr "## T\nold\nmore\n# Next\nz") (ofStr "body") 0 2)) := by
  have hcontent : ∀ cl ∈ splitNl (stripNlBoth (ofStr "body")), ∀ k tx,
      matchHeadingLine cl = some (k, tx) → 2 < k := by
    intro cl hcl k tx hm
    rw [show splitNl (stripNlBoth (ofStr "body")) = [ofStr "body"] from rfl] at hcl
    rw [List.mem_singleton] at hcl
    subst hcl
    rw [show matchHeadingLine (ofStr "body") = none from rfl] at hm
    cases hm
  exact ⟨by decide, (c4_replace (ofStr "## T\nold\nmore\n# Next\nz") (ofStr "T")
    (ofStr "body") 2 0 (ofStr "T") (by decide) hcontent).1⟩

end McpObsidian
